import Mathlib

/-
Verification development for the mailstrip library (a Go port of GitHub's
email_reply_parser).  The definitions below are a shallow embedding of
src/mailstrip.go: text is modelled as `List Char` (Go strings are handled
rune-wise by the library: `reverseString` reverses runes, and splitting on
'\n' is byte/rune agnostic for valid UTF-8), and each Go regular expression
is embedded as an executable predicate on newline-free lines (the scanner
only ever feeds single lines to them), or, for the two whole-text reply
header expressions, as an explicit leftmost-first greedy match finder.
-/

namespace Mailstrip

/-! ## Character classes (Go `regexp` and `unicode`) -/

/-- Go regexp `\w` = `[0-9A-Za-z_]` (no Unicode classes are enabled). -/
def isWordChar (c : Char) : Bool := c.isAlphanum || c = '_'

/-- Go regexp `\s` = `[\t\n\f\r ]`. -/
def isSpaceRe (c : Char) : Bool :=
  c = '\t' || c = '\n' || c = '\x0c' || c = '\r' || c = ' '

/-- Go `unicode.IsSpace`: '\t', '\n', '\v', '\f', '\r', ' ', U+0085, U+00A0,
and the Unicode White_Space code points. -/
def unicodeIsSpace (c : Char) : Bool :=
  c = '\t' || c = '\n' || c = '\x0b' || c = '\x0c' || c = '\r' || c = ' ' ||
  c.toNat = 0x85 || c.toNat = 0xa0 || c.toNat = 0x1680 ||
  (0x2000 ≤ c.toNat && c.toNat ≤ 0x200a) ||
  c.toNat = 0x2028 || c.toNat = 0x2029 || c.toNat = 0x202f ||
  c.toNat = 0x205f || c.toNat = 0x3000

/-! ## Generic string helpers (Go `strings` package) -/

/-- Whether `pat` occurs as a contiguous substring of `s`
(`regexp` unanchored literal search). -/
def containsSeq (pat : List Char) : List Char → Bool
  | [] => pat.isEmpty
  | c :: rest => pat.isPrefixOf (c :: rest) || containsSeq pat rest

/-- Go `strings.Replace(s, pat, rep, -1)`, fuelled so that the recursion
is structural (each step consumes at least one character of `s`, so
`s.length` fuel is always enough; see `replaceAll_cons`). -/
def replaceAllAux (pat rep : List Char) : Nat → List Char → List Char
  | 0, s => s
  | _ + 1, [] => []
  | fuel + 1, c :: rest =>
    if !pat.isEmpty && pat.isPrefixOf (c :: rest) then
      rep ++ replaceAllAux pat rep fuel (rest.drop (pat.length - 1))
    else
      c :: replaceAllAux pat rep fuel rest

/-- Go `strings.Replace(s, pat, rep, -1)`: replace every (leftmost,
non-overlapping) occurrence of `pat` in `s` by `rep`.  All call sites in
mailstrip pass a non-empty `pat`; for an empty `pat` this returns `s`. -/
def replaceAll (pat rep : List Char) (s : List Char) : List Char :=
  replaceAllAux pat rep s.length s

/-- Go `strings.TrimRightFunc(s, unicode.IsSpace)`. -/
def trimRightSpace (s : List Char) : List Char :=
  (s.reverse.dropWhile unicodeIsSpace).reverse

/-- Go `strings.TrimSpace(s)` (trim `unicode.IsSpace` on both sides). -/
def trimSpace (s : List Char) : List Char :=
  trimRightSpace (s.dropWhile unicodeIsSpace)

/-- The line decomposition performed by the `bufio.Reader` loop in
`parser.Parse`: `ReadBytes('\n')` + `strings.TrimRight(line, "\n")` scans
exactly the '\n'-separated chunks of the text, including a final (possibly
empty) chunk after the last '\n'. -/
def splitLines : List Char → List (List Char)
  | [] => [[]]
  | c :: rest =>
    if c = '\n' then [] :: splitLines rest
    else
      match splitLines rest with
      | [] => [[c]]
      | l :: ls => (c :: l) :: ls

/-- Go `strings.Join(ls, "\n")`. -/
def joinLines : List (List Char) → List Char
  | [] => []
  | [l] => l
  | l :: ls => l ++ '\n' :: joinLines ls

/-! ## The compiled line classifiers

`sigRegexp = (--|__|(?m)\w-$)|(?m)(^(\w+\s*){1,3} ym morf tneS$)` where
`ym morf tneS = reverseString("Sent from my")`.  The scanner only matches
it against single (newline-free) lines.  The `(\w+\s*){1,3}` repetition is
embedded by an explicit search over the possible remainders. -/

/-- Remainders of `t` after consuming a non-empty prefix of word
characters (`\w+`). -/
def wplusTails : List Char → List (List Char)
  | [] => []
  | c :: rest => if isWordChar c then rest :: wplusTails rest else []

/-- Remainders of `t` after consuming a (possibly empty) prefix of
whitespace characters (`\s*`). -/
def sstarTails (t : List Char) : List (List Char) :=
  t :: match t with
       | [] => []
       | c :: rest => if isSpaceRe c then sstarTails rest else []

/-- Remainders after one `\w+\s*` group. -/
def blockTails (t : List Char) : List (List Char) :=
  (wplusTails t).flatMap sstarTails

/-- Remainders after `(\w+\s*){1,3}`: one, two or three groups. -/
def rep13Tails (t : List Char) : List (List Char) :=
  let b1 := blockTails t
  let b2 := b1.flatMap blockTails
  let b3 := b2.flatMap blockTails
  b1 ++ b2 ++ b3

/-- The literal tail ` ym morf tneS` of the signature pattern
(a space, then `reverseString("Sent from my")`). -/
def sentFromMyTail : List Char := ' ' :: "Sent from my".data.reverse

/-- The alternative `^(\w+\s*){1,3} ym morf tneS$` of `sigRegexp`. -/
def sentFromMyMatch (line : List Char) : Bool :=
  sentFromMyTail.isSuffixOf line &&
  (rep13Tails (line.take (line.length - sentFromMyTail.length))).any List.isEmpty

/-- The alternative `(?m)\w-$` of `sigRegexp`: the line ends with a word
character followed by `-`. -/
def endsWithWordDash (line : List Char) : Bool :=
  match line.reverse with
  | c1 :: c2 :: _ => c1 = '-' && isWordChar c2
  | _ => false

/-- `sigRegexp.MatchString(line)` for a newline-free line. -/
def sigRegexpMatch (line : List Char) : Bool :=
  containsSeq ['-', '-'] line || containsSeq ['_', '_'] line ||
  endsWithWordDash line || sentFromMyMatch line

/-- `quotedRegexp = (?m)(>+)$` on a newline-free line: the line ends with
(at least one) `>`. -/
def quotedRegexpMatch (line : List Char) : Bool :=
  match line.getLast? with
  | some c => c = '>'
  | none => false

/-- The suffix `\d{2}/\d{2}/\d{4}` (exactly the last ten characters). -/
def ddSlashSuffix (s : List Char) : Bool :=
  match s with
  | [a, b, c, d, e, f, g, h, i, j] =>
    a.isDigit && b.isDigit && c = '/' && d.isDigit && e.isDigit && f = '/' &&
    g.isDigit && h.isDigit && i.isDigit && j.isDigit
  | _ => false

/-- `quoteHeaderRegexp = (?m)^:etorw.*nO$|^>.*\d{2}/\d{2}/\d{4}$` on a
newline-free line. -/
def quoteHeaderRegexpMatch (line : List Char) : Bool :=
  (":etorw".data.isPrefixOf line && "nO".data.isSuffixOf line && 8 ≤ line.length) ||
  (['>'].isPrefixOf line && 11 ≤ line.length &&
    ddSlashSuffix (line.drop (line.length - 10)))

/-- Case-insensitive literal strip: consume `pat` from the front of `s`
comparing characters by `Char.toLower` (the ASCII restriction of Go's
`(?i)` case folding; the pattern here is pure ASCII). -/
def stripCI : List Char → List Char → Option (List Char)
  | [], s => some s
  | _ :: _, [] => none
  | p :: pr, c :: rest => if p.toLower = c.toLower then stripCI pr rest else none

/-- The literal `egassem dedrawroF` = `reverseString("Forwarded message")`. -/
def fwdLiteral : List Char := "Forwarded message".data.reverse

/-- `fwdRegexp = (?mi)^--+\s*egassem dedrawroF\s*--+$` on a newline-free
line: two or more dashes, optional whitespace, the reversed literal
(case-insensitive), optional whitespace, two or more dashes, nothing else. -/
def fwdRegexpMatch (line : List Char) : Bool :=
  2 ≤ (line.takeWhile (· = '-')).length &&
  match stripCI fwdLiteral ((line.dropWhile (· = '-')).dropWhile isSpaceRe) with
  | none => false
  | some r =>
    let r2 := r.dropWhile isSpaceRe
    2 ≤ r2.length && r2.all (· = '-')

/-! ## The multi-line reply header finders

`multiLineReplyHeaderRegexps` are matched with `FindStringSubmatch` against
the whole (normalized) text; Go regexp semantics are leftmost-first with
greedy operators, so the capture starts at the first viable line start and
each greedy operator then extends as far as a completion allows. -/

/-- Character of `t` at index `i` (NUL past the end; every use is guarded
so that the default never matters). -/
def charAt (t : List Char) (i : Nat) : Char := t.getD i (Char.ofNat 0)

/-- `slice t i len` = the substring of `t` starting at `i` of length at
most `len`. -/
def slice (t : List Char) (i len : Nat) : List Char := (t.drop i).take len

/-- `(?m)^` matches at position `p`. -/
def isLineStart (t : List Char) (p : Nat) : Bool :=
  p = 0 || charAt t (p - 1) = '\n'

/-- `(?m)$` matches at position `q`. -/
def isLineEnd (t : List Char) (q : Nat) : Bool :=
  q = t.length || charAt t q = '\n'

/-- Candidate match ends for `^(On\s(?:.+)wrote:)$` starting at `p`:
positions `q` at a line end with `wrote:` just before and at least one
`.+` character between the `On\s` and the `wrote:` (ascending order). -/
def onWroteEnds (t : List Char) (p : Nat) : List Nat :=
  (List.range (t.length + 1)).filter fun q =>
    p + 10 ≤ q && isLineEnd t q && slice t (q - 6) 6 = "wrote:".data

/-- `^On\s` viable at `p`. -/
def onWroteStartOk (t : List Char) (p : Nat) : Bool :=
  isLineStart t p && slice t p 2 = "On".data && isSpaceRe (charAt t (p + 2))

/-- `FindStringSubmatch` capture of `(?sm)^(On\s(?:.+)wrote:)$`: leftmost
viable start, then the greedy `.+` picks the last viable `wrote:` line
end. -/
def multiLineReplyHeaderFind1 (t : List Char) : Option (List Char) :=
  match (List.range t.length).find? (fun p =>
      onWroteStartOk t p && !(onWroteEnds t p).isEmpty) with
  | none => none
  | some p =>
    match (onWroteEnds t p).getLast? with
    | none => none
    | some q => some (slice t p (q - p))

/-- `\d{k}` at index `i` of `t`. -/
def digitsAt (t : List Char) (i k : Nat) : Bool :=
  (slice t i k).length = k && (slice t i k).all Char.isDigit

/-- `^\d{4}/\d{2}/\d{2} ` viable at `p`. -/
def dateStartOk (t : List Char) (p : Nat) : Bool :=
  isLineStart t p && digitsAt t p 4 && charAt t (p + 4) = '/' &&
  digitsAt t (p + 5) 2 && charAt t (p + 7) = '/' && digitsAt t (p + 8) 2 &&
  charAt t (p + 10) = ' '

/-- Candidate ends `k` for `>` at a line end with `k - 1 ≥ lo` (ascending). -/
def gtLineEnds (t : List Char) (lo : Nat) : List Nat :=
  (List.range (t.length + 1)).filter fun k =>
    lo + 1 ≤ k && charAt t (k - 1) = '>' && isLineEnd t k

/-- Candidate `@` positions at or after `lo` that can be completed by
`.+>` at a line end (ascending). -/
def atSignPositions (t : List Char) (lo : Nat) : List Nat :=
  (List.range t.length).filter fun j =>
    lo ≤ j && charAt t j = '@' && !(gtLineEnds t (j + 2)).isEmpty

/-- Candidate `<` positions at or after `p + 11` that can be completed by
`.+@.+>` at a line end (ascending). -/
def ltSignPositions (t : List Char) (p : Nat) : List Nat :=
  (List.range t.length).filter fun i =>
    p + 11 ≤ i && charAt t i = '<' && !(atSignPositions t (i + 2)).isEmpty

/-- `FindStringSubmatch` capture of `(?sm)^(\d{4}/\d{2}/\d{2} .*<.+@.+>)$`:
leftmost viable start, then the greedy `.*`, `.+`, `.+` pick, in that
priority order, the last viable `<`, `@` and `>`-at-line-end positions. -/
def multiLineReplyHeaderFind2 (t : List Char) : Option (List Char) :=
  match (List.range t.length).find? (fun p =>
      dateStartOk t p && !(ltSignPositions t p).isEmpty) with
  | none => none
  | some p =>
    match (ltSignPositions t p).getLast? with
    | none => none
    | some i =>
      match (atSignPositions t (i + 2)).getLast? with
      | none => none
      | some j =>
        match (gtLineEnds t (j + 2)).getLast? with
        | none => none
        | some k => some (slice t p (k - p))

/-- `strings.Replace(m, "\n", "", -1)`: remove every newline of the
captured header. -/
def stripNewlines (m : List Char) : List Char := m.filter (fun c => !(c = '\n'))

/-- The normalization prefix of `parser.Parse` (lines 62-73): convert
`\r\n` to `\n`, then for each multi-line reply header regexp in order,
if it matches, replace every occurrence of the captured text by the
capture with its newlines removed. -/
def normalize (text : List Char) : List Char :=
  let t1 := replaceAll ['\r', '\n'] ['\n'] text
  let t2 :=
    match multiLineReplyHeaderFind1 t1 with
    | some m => replaceAll m (stripNewlines m) t1
    | none => t1
  match multiLineReplyHeaderFind2 t2 with
  | some m => replaceAll m (stripNewlines m) t2
  | none => t2

/-! ## Fragments and the parser state machine -/

/-- A parsed section of an email (struct `Fragment`). -/
structure Fragment where
  lines : List (List Char)
  content : List Char
  hidden : Bool
  signature : Bool
  forwarded : Bool
  quoted : Bool
deriving DecidableEq, Repr

/-- `Fragment.finish`: join the buffered lines, reverse the result into
natural reading order, drop the buffer. -/
def Fragment.finish (f : Fragment) : Fragment :=
  { f with content := (joinLines f.lines).reverse, lines := [] }

/-- The `parser` struct. -/
structure ParserState where
  foundVisible : Bool
  fragment : Option Fragment
  fragments : List Fragment
deriving DecidableEq, Repr

def initialState : ParserState := ⟨false, none, []⟩

/-- `parser.finishFragment`: close the open fragment (if any), classify
its hidden flag (only while no visible fragment has been found), and
append it to the parsed list. -/
def finishFragment (st : ParserState) : ParserState :=
  match st.fragment with
  | none => { st with fragment := none }
  | some f0 =>
    let f := f0.finish
    if !st.foundVisible then
      if f.quoted || f.signature || (trimSpace f.content).isEmpty then
        { st with fragment := none,
                  fragments := st.fragments ++ [{ f with hidden := true }] }
      else
        { foundVisible := true, fragment := none,
          fragments := st.fragments ++ [f] }
    else
      { st with fragment := none, fragments := st.fragments ++ [f] }

/-- The trim decision of `parser.scanLine` (lines 106-110): leading
whitespace is removed unless the line matches `sigRegexp`. -/
def processLine (line : List Char) : List Char :=
  if sigRegexpMatch line then line else line.dropWhile unicodeIsSpace

/-- `lines[len(lines)-1]`; fragment line buffers are never empty. -/
def lastLineOf (ls : List (List Char)) : List Char := ls.getLastD []

/-- The blank-line boundary check of `parser.scanLine` (lines 116-129):
on an empty line, if the open fragment's chronologically-first buffered
line matches the forwarded banner, mark it forwarded and close it;
otherwise if it matches `sigRegexp`, mark it a signature and close it. -/
def boundaryCheck (st : ParserState) (line : List Char) : ParserState :=
  match st.fragment with
  | none => st
  | some f =>
    if line.isEmpty then
      if fwdRegexpMatch (lastLineOf f.lines) then
        finishFragment { st with fragment := some { f with forwarded := true } }
      else if sigRegexpMatch (lastLineOf f.lines) then
        finishFragment { st with fragment := some { f with signature := true } }
      else st
    else st

/-- The Yahoo!-style quote-header propagation of `parser.scanLine`
(lines 131-137). -/
def quoteHeaderPropagate (st : ParserState) (isQuoteHeader : Bool) : ParserState :=
  match st.fragment with
  | none => st
  | some f =>
    if isQuoteHeader then { st with fragment := some { f with quoted := true } }
    else st

/-- The continuation decision of `parser.scanLine` (lines 139-151): the
line extends the open fragment when its `quoted` flag equals the line's
quoted test, or the fragment is quoted and the line is a quote header or
blank; otherwise the open fragment is closed and a new one is opened. -/
def continuationStep (st : ParserState) (line : List Char)
    (isQuoted isQuoteHeader : Bool) : ParserState :=
  match st.fragment with
  | some f =>
    if f.quoted = isQuoted || (f.quoted && (isQuoteHeader || line.isEmpty)) then
      { st with fragment := some { f with lines := f.lines ++ [line] } }
    else
      { finishFragment st with
        fragment := some ⟨[line], [], false, false, false, isQuoted⟩ }
  | none =>
    { finishFragment st with
      fragment := some ⟨[line], [], false, false, false, isQuoted⟩ }

/-- `parser.scanLine`. -/
def scanLine (st : ParserState) (line0 : List Char) : ParserState :=
  let line := processLine line0
  let isQuoted := quotedRegexpMatch line
  let st1 := boundaryCheck st line
  let isQH := quoteHeaderRegexpMatch line
  let st2 := quoteHeaderPropagate st1 isQH
  continuationStep st2 line isQuoted isQH

/-- `Parse` / `parser.Parse`: normalize, reverse the text, scan every
line, finish the last fragment, reverse the fragment list back into
reading order.  The `bufio.Reader` over a `strings.Reader` never fails,
so parsing is total. -/
def parse (text : List Char) : List Fragment :=
  let t := (normalize text).reverse
  let st := (splitLines t).foldl scanLine initialState
  (finishFragment st).fragments.reverse

/-- `Email.String`: collect the contents of the non-hidden fragments in
order, join them with single newlines, trim trailing whitespace. -/
def emailString (e : List Fragment) : List Char :=
  let results := e.foldl (fun acc f => if f.hidden then acc else acc ++ [f.content]) []
  trimRightSpace (joinLines results)

/-- First line of a content string. -/
def firstLine (c : List Char) : List Char := c.takeWhile (fun x => x != '\n')

/-- The per-line processing in original (unreversed) orientation: a line
is kept verbatim when its reversal matches `sigRegexp`, and otherwise has
its trailing whitespace removed (`scanLine` trims leading whitespace of
the reversed line). -/
def scanProcessedLine (l : List Char) : List Char := (processLine l.reverse).reverse

/-- The line buffer of the open fragment, if any, viewed as a joined
block of text. -/
def openBlocks : Option Fragment → List (List Char)
  | none => []
  | some f => [joinLines f.lines]

/-- The text blocks held by a parser state: one per closed fragment (its
content, un-reversed back to scan orientation) and one for the open
fragment (its joined line buffer). -/
def stateBlocks (st : ParserState) : List (List Char) :=
  st.fragments.map (fun f => f.content.reverse) ++ openBlocks st.fragment

/-- Hidden flags are downward closed along a fragment list: any fragment
preceding a hidden one is hidden too (scan order — this becomes "the
hidden fragments are a suffix" once the list is reversed into reading
order). -/
def HiddenDownClosed (l : List Fragment) : Prop :=
  ∀ i j (hi : i < l.length) (hj : j < l.length), i ≤ j →
    (l.get ⟨j, hj⟩).hidden = true → (l.get ⟨i, hi⟩).hidden = true

/-- The scanning invariant: `acc` is the list of processed lines consumed
so far (in scan order). -/
structure ScanInv (st : ParserState) (acc : List (List Char)) : Prop where
  blocksEq : joinLines (stateBlocks st) = joinLines acc
  blocksNil : stateBlocks st = [] ↔ acc = []
  openNonempty : ∀ f, st.fragment = some f → f.lines ≠ []
  openNoNl : ∀ f, st.fragment = some f → ∀ l ∈ f.lines, '\n' ∉ l
  openHidden : ∀ f, st.fragment = some f → f.hidden = false
  openFwd : ∀ f, st.fragment = some f → f.forwarded = false
  closedFwd : ∀ g ∈ st.fragments, g.forwarded = true →
    fwdRegexpMatch (firstLine g.content).reverse = true
  hiddenAll : st.foundVisible = false → ∀ g ∈ st.fragments, g.hidden = true
  hiddenDC : HiddenDownClosed st.fragments

/-- The hidden-classification condition of `finishFragment`: the closed
fragment is quoted, or a signature, or its trimmed content is empty. -/
def hiddenCond (f : Fragment) : Bool :=
  f.quoted || f.signature || (trimSpace f.finish.content).isEmpty

/-- One `\w+\s*` group of the signature pattern, as a proposition. -/
def IsWordBlock (b : List Char) : Prop :=
  ∃ w s, b = w ++ s ∧ w ≠ [] ∧ (∀ c ∈ w, isWordChar c = true) ∧
    (∀ c ∈ s, isSpaceRe c = true)

/-- `(\w+\s*){1,3}`: a concatenation of one, two or three groups. -/
def WordBlocks13 (t : List Char) : Prop :=
  (∃ b1, IsWordBlock b1 ∧ t = b1) ∨
  (∃ b1 b2, IsWordBlock b1 ∧ IsWordBlock b2 ∧ t = b1 ++ b2) ∨
  (∃ b1 b2 b3, IsWordBlock b1 ∧ IsWordBlock b2 ∧ IsWordBlock b3 ∧ t = b1 ++ b2 ++ b3)

/-- The signature-start test exactly as the spec claim words it: a line
*consisting of* `--` or `__`, or ending in a word character followed by
`-`, or one to three words followed by the reversed phrase
`Sent from my`.  (Spec wording — to be compared against `sigRegexpMatch`,
which is embedded from the source regexp.) -/
def specSigClaim (line : List Char) : Prop :=
  line = ['-', '-'] ∨ line = ['_', '_'] ∨
  (∃ c, isWordChar c = true ∧ [c, '-'] <:+ line) ∨
  (∃ t, line = t ++ sentFromMyTail ∧ WordBlocks13 t)

/-- The line-length condition of the spec's LineTooLong failure: some
line of the normalized, reversed text exceeds 64 KiB.  (Spec wording —
the source's `bufio.Reader`/`ReadBytes` loop has no such limit and no
error path at all.) -/
def specLineTooLong (text : List Char) : Bool :=
  (splitLines (normalize text).reverse).any (fun l => 64 * 1024 < l.length)

/-! ## Basic lemmas about line splitting and joining -/

theorem splitLines_ne_nil (t : List Char) : splitLines t ≠ [] := by
  induction t with
  | nil => simp [splitLines]
  | cons c rest ih =>
    simp only [splitLines]
    split
    · simp
    · cases h : splitLines rest with
      | nil => simp
      | cons l ls => simp

theorem no_newline_of_mem_splitLines {t : List Char} {l : List Char}
    (h : l ∈ splitLines t) : '\n' ∉ l := by
  induction t generalizing l with
  | nil => simp [splitLines] at h; simp [h]
  | cons c rest ih =>
    simp only [splitLines] at h
    split at h
    · rcases List.mem_cons.mp h with h | h
      · simp [h]
      · exact ih h
    · rename_i hc
      cases hsp : splitLines rest with
      | nil => exact absurd hsp (splitLines_ne_nil rest)
      | cons l0 ls =>
        rw [hsp] at h
        rcases List.mem_cons.mp h with h | h
        · subst h
          intro hmem
          rcases List.mem_cons.mp hmem with h | h
          · exact hc h.symm
          · exact ih (by rw [hsp]; exact List.mem_cons_self l0 ls) h
        · exact ih (by rw [hsp]; exact List.mem_cons_of_mem l0 h)

theorem joinLines_cons {ls : List (List Char)} (l : List Char) (h : ls ≠ []) :
    joinLines (l :: ls) = l ++ '\n' :: joinLines ls := by
  cases ls with
  | nil => exact absurd rfl h
  | cons l2 ls2 => rfl

theorem joinLines_concat {B : List (List Char)} (x : List Char) (h : B ≠ []) :
    joinLines (B ++ [x]) = joinLines B ++ '\n' :: x := by
  induction B with
  | nil => exact absurd rfl h
  | cons b B ih =>
    cases B with
    | nil => rfl
    | cons b2 B2 =>
      rw [List.cons_append, joinLines_cons b (by simp), joinLines_cons b (by simp),
        ih (by simp)]
      simp

theorem joinLines_splitLines (t : List Char) : joinLines (splitLines t) = t := by
  induction t with
  | nil => rfl
  | cons c rest ih =>
    simp only [splitLines]
    split
    · rename_i hc
      rw [joinLines_cons _ (splitLines_ne_nil rest), ih, hc]
      rfl
    · cases hsp : splitLines rest with
      | nil => exact absurd hsp (splitLines_ne_nil rest)
      | cons l ls =>
        rw [hsp] at ih
        cases ls with
        | nil => simpa [joinLines] using congrArg (c :: ·) ih
        | cons l2 ls2 =>
          rw [joinLines_cons _ (by simp)] at ih ⊢
          simpa using congrArg (c :: ·) ih

theorem splitLines_of_no_newline {l : List Char} (h : '\n' ∉ l) :
    splitLines l = [l] := by
  induction l with
  | nil => rfl
  | cons c rest ih =>
    simp only [splitLines]
    rw [if_neg (by intro hc; exact h (by simp [hc]))]
    rw [ih (by intro hm; exact h (List.mem_cons_of_mem c hm))]

theorem splitLines_append {l t : List Char} (h : '\n' ∉ l) :
    splitLines (l ++ '\n' :: t) = l :: splitLines t := by
  induction l with
  | nil => simp [splitLines]
  | cons c rest ih =>
    have ih' := ih (fun hm => h (List.mem_cons_of_mem c hm))
    have hc : ¬ c = '\n' := fun hc => h (by simp [hc])
    show splitLines (c :: (rest ++ '\n' :: t)) = (c :: rest) :: splitLines t
    rw [splitLines, if_neg hc, ih']

theorem splitLines_joinLines {ls : List (List Char)} (hne : ls ≠ [])
    (h : ∀ l ∈ ls, '\n' ∉ l) : splitLines (joinLines ls) = ls := by
  induction ls with
  | nil => exact absurd rfl hne
  | cons l ls ih =>
    cases ls with
    | nil => exact splitLines_of_no_newline (h l (by simp))
    | cons l2 ls2 =>
      rw [joinLines_cons _ (by simp), splitLines_append (h l (by simp))]
      rw [ih (by simp) (fun x hx => h x (List.mem_cons_of_mem l hx))]

theorem reverse_joinLines (ls : List (List Char)) :
    (joinLines ls).reverse = joinLines ((ls.map List.reverse).reverse) := by
  induction ls with
  | nil => rfl
  | cons l ls ih =>
    cases ls with
    | nil => rfl
    | cons l2 ls2 =>
      have hne : (List.map List.reverse (l2 :: ls2)).reverse ≠ [] := by simp
      calc (joinLines (l :: l2 :: ls2)).reverse
          = (joinLines (l2 :: ls2)).reverse ++ '\n' :: l.reverse := by
            rw [joinLines_cons _ (by simp)]; simp
        _ = joinLines ((List.map List.reverse (l2 :: ls2)).reverse) ++ '\n' :: l.reverse := by
            rw [ih]
        _ = joinLines ((List.map List.reverse (l2 :: ls2)).reverse ++ [l.reverse]) :=
            (joinLines_concat l.reverse hne).symm
        _ = joinLines ((List.map List.reverse (l :: l2 :: ls2)).reverse) := by
            simp

theorem splitLines_reverse (t : List Char) :
    splitLines t.reverse = ((splitLines t).map List.reverse).reverse := by
  conv_lhs => rw [← joinLines_splitLines t]
  rw [reverse_joinLines]
  refine splitLines_joinLines (by simp [splitLines_ne_nil]) ?_
  intro l hl
  simp only [List.mem_reverse, List.mem_map] at hl
  obtain ⟨l0, hl0, rfl⟩ := hl
  simpa using no_newline_of_mem_splitLines hl0

/-! ## Basic lemmas about `replaceAll` and `containsSeq` -/

theorem replaceAllAux_congr (pat rep : List Char) :
    ∀ (f1 f2 : Nat) (s : List Char), s.length ≤ f1 → s.length ≤ f2 →
      replaceAllAux pat rep f1 s = replaceAllAux pat rep f2 s := by
  intro f1
  induction f1 with
  | zero =>
    intro f2 s h1 _
    have hs : s = [] := List.eq_nil_of_length_eq_zero (Nat.le_zero.mp h1)
    subst hs
    cases f2 <;> rfl
  | succ f ih =>
    intro f2 s h1 h2
    cases s with
    | nil => cases f2 <;> rfl
    | cons c rest =>
      cases f2 with
      | zero => simp at h2
      | succ g =>
        simp only [replaceAllAux]
        have hr : rest.length ≤ f := by simpa using h1
        have hg : rest.length ≤ g := by simpa using h2
        split
        · rw [ih g (rest.drop (pat.length - 1))
            (Nat.le_trans (by simp) hr) (Nat.le_trans (by simp) hg)]
        · rw [ih g rest hr hg]

theorem replaceAll_cons (pat rep : List Char) (c : Char) (rest : List Char) :
    replaceAll pat rep (c :: rest) =
      if !pat.isEmpty && pat.isPrefixOf (c :: rest) then
        rep ++ replaceAll pat rep (rest.drop (pat.length - 1))
      else c :: replaceAll pat rep rest := by
  show replaceAllAux pat rep (c :: rest).length (c :: rest) = _
  simp only [List.length_cons, replaceAllAux]
  split
  · rw [replaceAll, replaceAllAux_congr pat rep rest.length (rest.drop (pat.length - 1)).length
      (rest.drop (pat.length - 1)) (by simp) (Nat.le_refl _)]
  · rfl

theorem replaceAll_of_head_notMem {p : Char} {pr rep : List Char} :
    ∀ {s : List Char}, p ∉ s → replaceAll (p :: pr) rep s = s := by
  intro s
  induction s with
  | nil => intro _; rfl
  | cons c rest ih =>
    intro h
    have hpc : (p == c) = false := by
      simp only [beq_eq_false_iff_ne, ne_eq]
      intro he; exact h (by simp [he])
    rw [replaceAll_cons]
    rw [if_neg (by simp [List.isPrefixOf, hpc])]
    rw [ih (fun hm => h (List.mem_cons_of_mem c hm))]

theorem containsSeq_iff {pat s : List Char} : containsSeq pat s = true ↔ pat <:+: s := by
  induction s with
  | nil =>
    simp only [containsSeq, List.isEmpty_iff]
    constructor
    · intro h; simp [h]
    · intro h; simpa using h.sublist.length_le
  | cons c rest ih =>
    simp only [containsSeq, Bool.or_eq_true, List.isPrefixOf_iff_prefix, ih,
      List.infix_cons_iff]

/-! ## Lemmas about `firstLine` -/

theorem firstLine_of_no_newline {a : List Char} (h : '\n' ∉ a) : firstLine a = a := by
  induction a with
  | nil => rfl
  | cons c rest ih =>
    have hc : (c != '\n') = true := by
      simp only [bne_iff_ne, ne_eq]
      intro he; exact h (by simp [he])
    simp only [firstLine, List.takeWhile_cons, hc, if_true]
    rw [show rest.takeWhile (fun x => x != '\n') = firstLine rest from rfl,
      ih (fun hm => h (List.mem_cons_of_mem c hm))]

theorem firstLine_append {a r : List Char} (h : '\n' ∉ a) :
    firstLine (a ++ '\n' :: r) = a := by
  induction a with
  | nil => simp [firstLine, List.takeWhile_cons]
  | cons c rest ih =>
    have hc : (c != '\n') = true := by
      simp only [bne_iff_ne, ne_eq]
      intro he; exact h (by simp [he])
    simp only [firstLine, List.cons_append, List.takeWhile_cons, hc, if_true]
    rw [show (rest ++ '\n' :: r).takeWhile (fun x => x != '\n') = firstLine (rest ++ '\n' :: r)
      from rfl, ih (fun hm => h (List.mem_cons_of_mem c hm))]

theorem firstLine_reverse_joinLines {ls : List (List Char)} (hne : ls ≠ [])
    (h : '\n' ∉ lastLineOf ls) :
    firstLine (joinLines ls).reverse = (lastLineOf ls).reverse := by
  rcases (List.eq_nil_or_concat ls).resolve_left hne with ⟨B, x, rfl⟩
  rw [List.concat_eq_append] at *
  have hlast : lastLineOf (B ++ [x]) = x := List.getLastD_concat _ _ _
  rw [hlast] at h ⊢
  have hx : '\n' ∉ x.reverse := by simpa using h
  cases B with
  | nil => simpa using firstLine_of_no_newline hx
  | cons b B2 =>
    rw [joinLines_concat x (by simp), List.reverse_append, List.reverse_cons,
      List.append_assoc]
    simpa using firstLine_append hx

/-! ## The scanning invariant and its preservation -/

theorem lastLineOf_mem {ls : List (List Char)} (h : ls ≠ []) : lastLineOf ls ∈ ls := by
  rcases (List.eq_nil_or_concat ls).resolve_left h with ⟨B, x, rfl⟩
  rw [List.concat_eq_append, show lastLineOf (B ++ [x]) = x from List.getLastD_concat _ _ _]
  simp

theorem joinLines_concat_append (B : List (List Char)) (x y : List Char) :
    joinLines (B ++ [x ++ y]) = joinLines (B ++ [x]) ++ y := by
  cases B with
  | nil => rfl
  | cons b B2 =>
    rw [joinLines_concat _ (by simp), joinLines_concat _ (by simp)]
    simp

theorem joinLines_congr_concat {B acc : List (List Char)}
    (hB : joinLines B = joinLines acc) (hn : B = [] ↔ acc = []) (x : List Char) :
    joinLines (B ++ [x]) = joinLines (acc ++ [x]) := by
  cases hBe : B with
  | nil =>
    rw [hn.mp hBe]
  | cons b B2 =>
    have hBne : B ≠ [] := by rw [hBe]; simp
    have hacc : acc ≠ [] := fun he => hBne (hn.mpr he)
    rw [← hBe, joinLines_concat _ hBne, joinLines_concat _ hacc, hB]

theorem hdc_of_all {l : List Fragment} (h : ∀ x ∈ l, x.hidden = true) :
    HiddenDownClosed l :=
  fun i _ hi _ _ _ => h _ (l.get_mem i hi)

theorem hdc_append {l : List Fragment} {g : Fragment} (hdc : HiddenDownClosed l)
    (hg : g.hidden = false) : HiddenDownClosed (l ++ [g]) := by
  intro i j hi hj hij hjh
  simp only [List.get_eq_getElem] at hjh ⊢
  have hlen : (l ++ [g]).length = l.length + 1 := by simp
  by_cases hj2 : j < l.length
  · have hi2 : i < l.length := lt_of_le_of_lt hij hj2
    rw [List.getElem_append_left hi2]
    rw [List.getElem_append_left hj2] at hjh
    have hstep := hdc i j hi2 hj2 hij
    simp only [List.get_eq_getElem] at hstep
    exact hstep hjh
  · have hjl : l.length ≤ j := Nat.le_of_not_lt hj2
    rw [List.getElem_append_right hjl] at hjh
    have hj0 : j - l.length = 0 := by rw [hlen] at hj; omega
    simp only [hj0, List.getElem_cons_zero] at hjh
    exact absurd hjh (by simp [hg])

theorem finishFragment_some_eq (fv : Bool) (f : Fragment) (frs : List Fragment) :
    finishFragment ⟨fv, some f, frs⟩ =
      ⟨fv || !(hiddenCond f), none,
        frs ++ [{ f.finish with hidden := f.hidden || (!fv && hiddenCond f) }]⟩ := by
  obtain ⟨ls, co, hi, si, fw, qu⟩ := f
  simp only [finishFragment, hiddenCond, Fragment.finish]
  cases fv <;>
    cases hq : (qu || si || (trimSpace (joinLines ls).reverse).isEmpty) <;>
      simp [hq]

theorem finishFragment_fragment_none (st : ParserState) :
    (finishFragment st).fragment = none := by
  obtain ⟨fv, frag, frs⟩ := st
  cases frag with
  | none => rfl
  | some f => rw [finishFragment_some_eq]

theorem scanInv_close {fv : Bool} {f : Fragment} {frs : List Fragment}
    {acc : List (List Char)}
    (hB : joinLines (stateBlocks ⟨fv, some f, frs⟩) = joinLines acc)
    (hBn : stateBlocks ⟨fv, some f, frs⟩ = [] ↔ acc = [])
    (hne : f.lines ≠ [])
    (hnl : ∀ l ∈ f.lines, '\n' ∉ l)
    (hh : f.hidden = false)
    (hfw : f.forwarded = true → fwdRegexpMatch (lastLineOf f.lines) = true)
    (hcf : ∀ g ∈ frs, g.forwarded = true →
      fwdRegexpMatch (firstLine g.content).reverse = true)
    (hha : fv = false → ∀ g ∈ frs, g.hidden = true)
    (hdc : HiddenDownClosed frs) :
    ScanInv (finishFragment ⟨fv, some f, frs⟩) acc := by
  rw [finishFragment_some_eq]
  set g : Fragment := { f.finish with hidden := f.hidden || (!fv && hiddenCond f) }
    with hgdef
  have hsb : stateBlocks ⟨fv || !(hiddenCond f), none, frs ++ [g]⟩ =
      stateBlocks ⟨fv, some f, frs⟩ := by
    simp [stateBlocks, openBlocks, hgdef, Fragment.finish]
  refine ⟨?_, ?_, ?_, ?_, ?_, ?_, ?_, ?_, ?_⟩
  · rw [hsb]; exact hB
  · rw [hsb]; exact hBn
  · intro f' hf'; simp at hf'
  · intro f' hf'; simp at hf'
  · intro f' hf'; simp at hf'
  · intro f' hf'; simp at hf'
  · intro g' hg' hfwd
    rcases List.mem_append.mp hg' with hold | hnew
    · exact hcf g' hold hfwd
    · have hgg : g' = g := by simpa using hnew
      subst hgg
      have hfw2 : f.forwarded = true := by simpa [hgdef, Fragment.finish] using hfwd
      have hcontent : g.content = (joinLines f.lines).reverse := by
        simp [hgdef, Fragment.finish]
      rw [hcontent, firstLine_reverse_joinLines hne (hnl _ (lastLineOf_mem hne)),
        List.reverse_reverse]
      exact hfw hfw2
  · intro hfv g' hg'
    have hfv2 : fv = false ∧ hiddenCond f = true := by
      constructor
      · cases fv
        · rfl
        · simp at hfv
      · cases hc : hiddenCond f
        · rw [hc] at hfv; simp [Bool.or_eq_false_iff] at hfv
        · rfl
    rcases List.mem_append.mp hg' with hold | hnew
    · exact hha hfv2.1 g' hold
    · have hgg : g' = g := by simpa using hnew
      subst hgg
      simp [hgdef, Fragment.finish, hfv2.1, hfv2.2]
  · cases hgh : g.hidden
    · exact hdc_append hdc hgh
    · have hcondtrue : (!fv && hiddenCond f) = true := by
        have h1 : (f.hidden || (!fv && hiddenCond f)) = true := by
          simpa [hgdef, Fragment.finish] using hgh
        rwa [hh, Bool.false_or] at h1
      have hfvfalse : fv = false := by
        cases fv
        · rfl
        · simp at hcondtrue
      refine hdc_of_all ?_
      intro x hx
      rcases List.mem_append.mp hx with hold | hnew
      · exact hha hfvfalse x hold
      · have hgg : x = g := by simpa using hnew
        rw [hgg]; exact hgh

theorem scanInv_finishFragment {st : ParserState} {acc : List (List Char)}
    (h : ScanInv st acc) : ScanInv (finishFragment st) acc := by
  obtain ⟨fv, frag, frs⟩ := st
  cases frag with
  | none => exact h
  | some f =>
    exact scanInv_close h.blocksEq h.blocksNil (h.openNonempty f rfl)
      (h.openNoNl f rfl) (h.openHidden f rfl)
      (fun hfwd => absurd hfwd (by rw [h.openFwd f rfl]; simp))
      h.closedFwd h.hiddenAll h.hiddenDC

theorem scanInv_boundaryCheck {st : ParserState} {acc : List (List Char)}
    (h : ScanInv st acc) (line : List Char) :
    ScanInv (boundaryCheck st line) acc := by
  obtain ⟨fv, frag, frs⟩ := st
  cases frag with
  | none => exact h
  | some f =>
    simp only [boundaryCheck]
    split
    · split
      · rename_i hfwd
        refine scanInv_close ?_ ?_ (h.openNonempty f rfl) (h.openNoNl f rfl)
          (h.openHidden f rfl) (fun _ => hfwd) h.closedFwd h.hiddenAll h.hiddenDC
        · simpa [stateBlocks, openBlocks] using h.blocksEq
        · simpa [stateBlocks, openBlocks] using h.blocksNil
      · split
        · refine scanInv_close ?_ ?_ (h.openNonempty f rfl) (h.openNoNl f rfl)
            (h.openHidden f rfl)
            (fun hfwd => absurd hfwd (by rw [show Fragment.forwarded { f with signature := true } = f.forwarded from rfl, h.openFwd f rfl]; simp))
            h.closedFwd h.hiddenAll h.hiddenDC
          · simpa [stateBlocks, openBlocks] using h.blocksEq
          · simpa [stateBlocks, openBlocks] using h.blocksNil
        · exact h
    · exact h

theorem scanInv_quoteHeaderPropagate {st : ParserState} {acc : List (List Char)}
    (h : ScanInv st acc) (b : Bool) :
    ScanInv (quoteHeaderPropagate st b) acc := by
  obtain ⟨fv, frag, frs⟩ := st
  cases frag with
  | none => exact h
  | some f =>
    simp only [quoteHeaderPropagate]
    split
    · refine ⟨?_, ?_, ?_, ?_, ?_, ?_, h.closedFwd, h.hiddenAll, h.hiddenDC⟩
      · simpa [stateBlocks, openBlocks] using h.blocksEq
      · simpa [stateBlocks, openBlocks] using h.blocksNil
      · intro f' hf'
        have : f' = { f with quoted := true } := by simpa using hf'.symm
        rw [this]; exact h.openNonempty f rfl
      · intro f' hf'
        have : f' = { f with quoted := true } := by simpa using hf'.symm
        rw [this]; exact h.openNoNl f rfl
      · intro f' hf'
        have : f' = { f with quoted := true } := by simpa using hf'.symm
        rw [this]; exact h.openHidden f rfl
      · intro f' hf'
        have : f' = { f with quoted := true } := by simpa using hf'.symm
        rw [this]; exact h.openFwd f rfl
    · exact h

theorem scanInv_newFragment {fv : Bool} {frs : List Fragment}
    {acc : List (List Char)} {pl : List Char} (iq : Bool)
    (h : ScanInv ⟨fv, none, frs⟩ acc) (hnl : '\n' ∉ pl) :
    ScanInv ⟨fv, some ⟨[pl], [], false, false, false, iq⟩, frs⟩ (acc ++ [pl]) := by
  have hsb : stateBlocks ⟨fv, some ⟨[pl], [], false, false, false, iq⟩, frs⟩ =
      stateBlocks ⟨fv, none, frs⟩ ++ [pl] := by
    simp [stateBlocks, openBlocks, joinLines]
  refine ⟨?_, ?_, ?_, ?_, ?_, ?_, h.closedFwd, h.hiddenAll, h.hiddenDC⟩
  · rw [hsb]
    exact joinLines_congr_concat h.blocksEq h.blocksNil pl
  · rw [hsb]
    constructor
    · intro hc; simp at hc
    · intro hc; simp at hc
  · intro f' hf'
    have : f' = ⟨[pl], [], false, false, false, iq⟩ := by simpa using hf'.symm
    rw [this]; simp
  · intro f' hf'
    have : f' = ⟨[pl], [], false, false, false, iq⟩ := by simpa using hf'.symm
    rw [this]; simpa using hnl
  · intro f' hf'
    have : f' = ⟨[pl], [], false, false, false, iq⟩ := by simpa using hf'.symm
    rw [this]
  · intro f' hf'
    have : f' = ⟨[pl], [], false, false, false, iq⟩ := by simpa using hf'.symm
    rw [this]

theorem scanInv_continuationStep {st : ParserState} {acc : List (List Char)}
    (h : ScanInv st acc) {pl : List Char} (hnl : '\n' ∉ pl) (iq iqh : Bool) :
    ScanInv (continuationStep st pl iq iqh) (acc ++ [pl]) := by
  obtain ⟨fv, frag, frs⟩ := st
  cases frag with
  | none => exact scanInv_newFragment iq h hnl
  | some f =>
    simp only [continuationStep]
    split
    · -- the line extends the open fragment
      have hlne := h.openNonempty f rfl
      have haccne : acc ≠ [] := by
        intro he
        have hbe := h.blocksNil.mpr he
        simp [stateBlocks, openBlocks] at hbe
      refine ⟨?_, ?_, ?_, ?_, ?_, ?_, h.closedFwd, h.hiddenAll, h.hiddenDC⟩
      · have e1 : stateBlocks ⟨fv, some { f with lines := f.lines ++ [pl] }, frs⟩ =
            frs.map (fun g => g.content.reverse) ++ [joinLines f.lines ++ '\n' :: pl] := by
          simp [stateBlocks, openBlocks, joinLines_concat pl hlne]
        rw [e1, joinLines_concat_append, joinLines_concat pl haccne]
        have e2 : frs.map (fun g => g.content.reverse) ++ [joinLines f.lines] =
            stateBlocks ⟨fv, some f, frs⟩ := rfl
        rw [e2, h.blocksEq]
      · constructor
        · intro hc; simp [stateBlocks, openBlocks] at hc
        · intro hc; simp at hc
      · intro f' hf'
        have he : f' = { f with lines := f.lines ++ [pl] } := by simpa using hf'.symm
        rw [he]; simp
      · intro f' hf'
        have he : f' = { f with lines := f.lines ++ [pl] } := by simpa using hf'.symm
        rw [he]
        intro l hl
        rcases List.mem_append.mp hl with hold | hnew
        · exact h.openNoNl f rfl l hold
        · have : l = pl := by simpa using hnew
          rw [this]; exact hnl
      · intro f' hf'
        have he : f' = { f with lines := f.lines ++ [pl] } := by simpa using hf'.symm
        rw [he]; exact h.openHidden f rfl
      · intro f' hf'
        have he : f' = { f with lines := f.lines ++ [pl] } := by simpa using hf'.symm
        rw [he]; exact h.openFwd f rfl
    · -- close the open fragment, open a new one
      have hfin := scanInv_finishFragment h
      rw [finishFragment_some_eq] at hfin ⊢
      exact scanInv_newFragment iq hfin hnl

theorem no_newline_processLine {line0 : List Char} (h : '\n' ∉ line0) :
    '\n' ∉ processLine line0 := by
  unfold processLine
  split
  · exact h
  · intro hm
    exact h ((List.dropWhile_sublist _).subset hm)

theorem scanInv_scanLine {st : ParserState} {acc : List (List Char)}
    (h : ScanInv st acc) {line0 : List Char} (hnl0 : '\n' ∉ line0) :
    ScanInv (scanLine st line0) (acc ++ [processLine line0]) := by
  have hnl := no_newline_processLine hnl0
  exact scanInv_continuationStep
    (scanInv_quoteHeaderPropagate (scanInv_boundaryCheck h _) _) hnl _ _

theorem scanInv_foldl {ls : List (List Char)} :
    ∀ {st : ParserState} {acc : List (List Char)}, ScanInv st acc →
      (∀ l ∈ ls, '\n' ∉ l) →
      ScanInv (ls.foldl scanLine st) (acc ++ ls.map processLine) := by
  induction ls with
  | nil => intro st acc h _; simpa using h
  | cons l ls ih =>
    intro st acc h hnl
    simp only [List.foldl_cons, List.map_cons]
    have h1 := scanInv_scanLine h (hnl l (by simp))
    have h2 := ih h1 (fun x hx => hnl x (List.mem_cons_of_mem l hx))
    simpa [List.append_assoc] using h2

theorem scanInv_initial : ScanInv initialState [] := by
  refine ⟨rfl, by simp [initialState, stateBlocks, openBlocks], ?_, ?_, ?_, ?_, ?_, ?_, ?_⟩
  · intro f hf; simp [initialState] at hf
  · intro f hf; simp [initialState] at hf
  · intro f hf; simp [initialState] at hf
  · intro f hf; simp [initialState] at hf
  · intro g hg; simp [initialState] at hg
  · intro _ g hg; simp [initialState] at hg
  · intro i j hi hj _ _
    simp [initialState] at hi

/-- The final parser state reached by `parse`, together with its
invariant. -/
theorem scanInv_parse (text : List Char) :
    ScanInv (finishFragment
        ((splitLines (normalize text).reverse).foldl scanLine initialState))
      ((splitLines (normalize text).reverse).map processLine) := by
  have h := @scanInv_foldl (splitLines (normalize text).reverse) initialState [] scanInv_initial
    (fun l hl => no_newline_of_mem_splitLines hl)
  simpa using scanInv_finishFragment h

theorem parse_eq (text : List Char) :
    parse text = (finishFragment
        ((splitLines (normalize text).reverse).foldl scanLine initialState)).fragments.reverse :=
  rfl

theorem getD_reverse {α : Type} (l : List α) (d : α) {i : Nat} (h : i < l.length) :
    l.reverse.getD i d = l.getD (l.length - 1 - i) d := by
  have h2 : i < l.reverse.length := by simpa using h
  rw [List.getD_eq_getElem _ _ h2, List.getD_eq_getElem _ _ (by omega)]
  exact List.getElem_reverse h2

theorem continuationStep_none {st : ParserState} (h : st.fragment = none)
    (pl : List Char) (iq iqh : Bool) :
    continuationStep st pl iq iqh =
      { finishFragment st with
        fragment := some ⟨[pl], [], false, false, false, iq⟩ } := by
  obtain ⟨fv, frag, frs⟩ := st
  cases frag with
  | none => rfl
  | some f => simp at h

theorem continuationStep_some {st : ParserState} {f : Fragment}
    (h : st.fragment = some f) (pl : List Char) (iq iqh : Bool) :
    continuationStep st pl iq iqh =
      if f.quoted = iq || (f.quoted && (iqh || pl.isEmpty)) then
        { st with fragment := some { f with lines := f.lines ++ [pl] } }
      else
        { finishFragment st with
          fragment := some ⟨[pl], [], false, false, false, iq⟩ } := by
  obtain ⟨fv, frag, frs⟩ := st
  cases frag with
  | none => simp at h
  | some f0 =>
    have : f0 = f := by simpa using h
    subst this
    rfl

/-! ## The claims -/

/-- C2 counterexample: on the body `"a \n"` (note the trailing blank before
the newline), the single returned fragment has content `"a\n"`: the scanner
trimmed the line's trailing whitespace, so rejoining the fragment contents
does not reproduce the normalized input `"a \n"` and the segmentation did
alter a line. -/
theorem C2_counterexample :
    parse "a \n".data = [⟨[], "a\n".data, false, false, false, false⟩] ∧
    joinLines ((parse "a \n".data).map Fragment.content) ≠ normalize "a \n".data :=
  ⟨by decide, by decide⟩

/-- C2 (amended): rejoining the fragment contents of `Parse(text)`, in
order, with newline separators reproduces the normalized input after the
scanner's per-line processing: every line whose reversal fails the
signature test loses its trailing whitespace, lines that pass it are kept
verbatim; segmentation partitions those processed lines without further
alteration. -/
theorem C2_roundtrip_trimmed (text : List Char) :
    joinLines ((parse text).map Fragment.content) =
      joinLines ((splitLines (normalize text)).map scanProcessedLine) := by
  have hInv := scanInv_parse text
  have hBeq := hInv.blocksEq
  set stF := finishFragment
    ((splitLines (normalize text).reverse).foldl scanLine initialState) with hstF
  have hfrag : stF.fragment = none := finishFragment_fragment_none _
  have hblocks : stateBlocks stF = stF.fragments.map (fun f => f.content.reverse) := by
    simp [stateBlocks, hfrag, openBlocks]
  calc joinLines ((parse text).map Fragment.content)
      = joinLines ((stF.fragments.map Fragment.content).reverse) := by
        rw [parse_eq, List.map_reverse]
    _ = joinLines (((stF.fragments.map (fun f => f.content.reverse)).map List.reverse).reverse)
        := by
        congr 2
        simp [List.map_map, Function.comp_def]
    _ = (joinLines (stF.fragments.map (fun f => f.content.reverse))).reverse := by
        rw [reverse_joinLines]
    _ = (joinLines ((splitLines (normalize text).reverse).map processLine)).reverse := by
        rw [← hblocks, hBeq]
    _ = (joinLines ((((splitLines (normalize text)).map
          (fun l => processLine l.reverse))).reverse)).reverse := by
        rw [splitLines_reverse, List.map_reverse, List.map_map]
        rfl
    _ = joinLines ((splitLines (normalize text)).map scanProcessedLine) := by
        rw [reverse_joinLines, List.map_reverse, List.reverse_reverse, List.map_map]
        rfl

/-- C3: a fragment closed by `finishFragment` is marked hidden exactly
when no visible fragment has been found yet and it is quoted, a signature,
or blank (first conjunct, as an exact description of `finishFragment`);
consequently, in the email returned by `parse`, hidden fragments form a
contiguous suffix: any fragment following a hidden one is hidden
(second conjunct). -/
theorem C3_hidden_close_and_suffix :
    (∀ (fv : Bool) (f : Fragment) (frs : List Fragment),
      finishFragment ⟨fv, some f, frs⟩ =
        ⟨fv || !(hiddenCond f), none,
          frs ++ [{ f.finish with hidden := f.hidden || (!fv && hiddenCond f) }]⟩) ∧
    (∀ (text : List Char) (i j : Nat), i ≤ j → j < (parse text).length →
      ((parse text).getD i ⟨[], [], false, false, false, false⟩).hidden = true →
      ((parse text).getD j ⟨[], [], false, false, false, false⟩).hidden = true) := by
  constructor
  · exact finishFragment_some_eq
  · intro text i j hij hj hhid
    have hi : i < (parse text).length := lt_of_le_of_lt hij hj
    have hInv := scanInv_parse text
    set frs := (finishFragment
      ((splitLines (normalize text).reverse).foldl scanLine initialState)).fragments
      with hfrs
    have hp : parse text = frs.reverse := parse_eq text
    rw [hp] at hi hj hhid ⊢
    have hi2 : i < frs.length := by simpa using hi
    have hj2 : j < frs.length := by simpa using hj
    rw [getD_reverse _ _ hi2] at hhid
    rw [getD_reverse _ _ hj2]
    have ha : frs.length - 1 - j < frs.length := by omega
    have hb : frs.length - 1 - i < frs.length := by omega
    have hdc := hInv.hiddenDC (frs.length - 1 - j) (frs.length - 1 - i) ha hb (by omega)
    simp only [List.get_eq_getElem] at hdc
    rw [List.getD_eq_getElem _ _ hb] at hhid
    rw [List.getD_eq_getElem _ _ ha]
    exact hdc hhid

/-- C3 witness: the suffix rule applied at a concrete input — the single
fragment of the parse of the empty string is hidden. -/
theorem C3_witness :
    ((parse "".data).getD 0 ⟨[], [], false, false, false, false⟩).hidden = true :=
  C3_hidden_close_and_suffix.2 "".data 0 0 (Nat.le_refl 0) (by decide) (by decide)

/-- C5 counterexample: a fragment whose first line is exactly the
forwarded banner, but which was not closed by the blank-line boundary rule
(the banner sits at the very start of the text, with no blank line above
it), has `forwarded = false`, refuting the claimed "if and only if". -/
theorem C5_counterexample :
    parse "------- Forwarded message -------".data =
      [⟨[], "------- Forwarded message -------".data, false, false, false, false⟩] ∧
    fwdRegexpMatch (firstLine "------- Forwarded message -------".data).reverse = true :=
  ⟨by decide, by decide⟩

/-- C5 (amended): the sound direction holds — whenever a parsed fragment
has `forwarded = true`, its first line (in original order) matches the
forwarded-message banner pattern; the converse fails for a banner-starting
fragment that is not closed at a blank line. -/
theorem C5_forwarded_sound (text : List Char) (g : Fragment) (hg : g ∈ parse text)
    (hfwd : g.forwarded = true) :
    fwdRegexpMatch (firstLine g.content).reverse = true := by
  have hInv := scanInv_parse text
  rw [parse_eq] at hg
  exact hInv.closedFwd g (List.mem_reverse.mp hg) hfwd

/-- C5 witness: a banner fragment preceded by a blank line is marked
forwarded, and its first line indeed matches the banner pattern. -/
theorem C5_witness :
    fwdRegexpMatch
      (firstLine "------- Forwarded message -------\nfoo".data).reverse = true :=
  C5_forwarded_sound "\n------- Forwarded message -------\nfoo".data
    ⟨[], "------- Forwarded message -------\nfoo".data, false, false, true, false⟩
    (by decide) (by decide)

/-- C6 counterexample: with two broken "On … wrote:" headers in the text,
the greedy leftmost-first match spans from the first header to the last
`wrote:` line end, so normalization deletes every newline in between —
including the later occurrence's — instead of collapsing only the first
occurrence and leaving the later one untouched as the claim states. -/
theorem C6_counterexample :
    normalize "On a\nwrote:\nX\nOn b\nwrote:\n".data = "On awrote:XOn bwrote:\n".data ∧
    normalize "On a\nwrote:\nX\nOn b\nwrote:\n".data ≠ "On awrote:\nX\nOn b\nwrote:\n".data :=
  ⟨by decide, by decide⟩

/-- C6 (amended): normalization converts `\r\n` to `\n` and removes the
internal line breaks of the single leftmost-first match of each reply
header regexp; because the `On … wrote:` pattern is greedy across lines,
when several such headers occur the one match spans from the first header
start to the last `wrote:` line end and every newline inside that whole
span is removed.  Normalization never fails. -/
theorem C6_normalize_greedy :
    normalize "a\r\nb".data = "a\nb".data ∧
    multiLineReplyHeaderFind1 "On a\nwrote:\nX\nOn b\nwrote:\n".data =
      some "On a\nwrote:\nX\nOn b\nwrote:".data ∧
    normalize "On a\nwrote:\nX\nOn b\nwrote:\n".data = "On awrote:XOn bwrote:\n".data :=
  ⟨by decide, by decide, by decide⟩

/-- C8: `Email.String` returns the concatenation of the contents of the
non-hidden fragments, in order, joined by single newlines, with trailing
whitespace trimmed; hidden fragments contribute nothing. -/
theorem C8_emailString (e : List Fragment) :
    emailString e =
      trimRightSpace (joinLines
        ((e.filter (fun f => f.hidden = false)).map Fragment.content)) := by
  have hfold : ∀ acc : List (List Char),
      e.foldl (fun acc f => if f.hidden then acc else acc ++ [f.content]) acc =
        acc ++ (e.filter (fun f => f.hidden = false)).map Fragment.content := by
    induction e with
    | nil => intro acc; simp
    | cons f fs ih =>
      intro acc
      cases hf : f.hidden <;>
        simp [List.foldl_cons, hf, ih, List.filter_cons, List.append_assoc]
  simp [emailString, hfold []]

/-- C9: parsing `"Hello\n\n-- \nrick\n"` yields exactly two fragments: the
first visible with content beginning `Hello`, the second hidden, marked as
a signature, with content beginning `-- \nrick`. -/
theorem C9_signature_example :
    parse "Hello\n\n-- \nrick\n".data =
      [⟨[], "Hello\n".data, false, false, false, false⟩,
       ⟨[], "-- \nrick\n".data, true, true, false, false⟩] ∧
    "Hello".data <+: "Hello\n".data ∧ "-- \nrick".data <+: "-- \nrick\n".data :=
  ⟨by decide, by decide, by decide⟩

/-- C10: parsing the empty string yields exactly one fragment with empty
content, `hidden = true`, and all other flags false; rendering that email
yields the empty string. -/
theorem C10_empty_string :
    parse "".data = [⟨[], [], true, false, false, false⟩] ∧
    emailString (parse "".data) = [] :=
  ⟨by decide, by decide⟩

/-- C4: the continuation decision of `scanLine`.  After the blank-line
boundary check and the quote-header propagation, the (processed) line
extends the open fragment exactly when an open fragment exists and either
its quoted flag equals the line's quoted test, or the fragment is quoted
and the line is a quote header or blank; in every other case the open
fragment (if any) is closed and a new fragment is opened whose quoted flag
is the line's quoted test and whose buffer is exactly that line. -/
theorem C4_continuation_decision (st : ParserState) (line0 : List Char) :
    let line := processLine line0
    let isQuoted := quotedRegexpMatch line
    let isQH := quoteHeaderRegexpMatch line
    let st2 := quoteHeaderPropagate (boundaryCheck st line) isQH
    (∀ f, st2.fragment = some f →
      ((f.quoted = isQuoted ∨ (f.quoted = true ∧ (isQH = true ∨ line = []))) →
        scanLine st line0 =
          { st2 with fragment := some { f with lines := f.lines ++ [line] } }) ∧
      (¬ (f.quoted = isQuoted ∨ (f.quoted = true ∧ (isQH = true ∨ line = []))) →
        scanLine st line0 =
          { finishFragment st2 with
            fragment := some ⟨[line], [], false, false, false, isQuoted⟩ })) ∧
    (st2.fragment = none →
      scanLine st line0 =
        { finishFragment st2 with
          fragment := some ⟨[line], [], false, false, false, isQuoted⟩ }) := by
  intro line isQuoted isQH st2
  have hscan : scanLine st line0 = continuationStep st2 line isQuoted isQH := rfl
  constructor
  · intro f hf
    constructor
    · intro hcond
      rw [hscan, continuationStep_some hf, if_pos]
      rcases hcond with hq | ⟨hq, hrest⟩
      · simp [hq]
      · rcases hrest with hqh | hblank
        · simp [hq, hqh]
        · simp [hq, hblank]
    · intro hcond
      rw [hscan, continuationStep_some hf, if_neg]
      intro hb
      rcases Bool.or_eq_true _ _ |>.mp hb with hb1 | hb2
      · exact hcond (Or.inl (by simpa using hb1))
      · rcases Bool.and_eq_true _ _ |>.mp hb2 with ⟨hq, hrest⟩
        rcases Bool.or_eq_true _ _ |>.mp hrest with hqh | hblank
        · exact hcond (Or.inr ⟨hq, Or.inl hqh⟩)
        · exact hcond (Or.inr ⟨hq, Or.inr (List.isEmpty_iff.mp hblank)⟩)
  · intro hnone
    rw [hscan, continuationStep_none hnone]

/-- C4 witness: scanning the line `hi` from the initial state (no open
fragment) opens a new, unquoted fragment holding exactly that line. -/
theorem C4_witness :
    scanLine initialState "hi".data =
      ⟨false, some ⟨["hi".data], [], false, false, false, false⟩, []⟩ :=
  (C4_continuation_decision initialState "hi".data).2 rfl

/-! ## Characterization of the signature regexp (for C7) -/

theorem wplusTails_mem {t r : List Char} :
    r ∈ wplusTails t ↔
      ∃ w, w ≠ [] ∧ (∀ c ∈ w, isWordChar c = true) ∧ t = w ++ r := by
  induction t generalizing r with
  | nil =>
    simp only [wplusTails, List.not_mem_nil, false_iff]
    rintro ⟨w, hne, _, hw⟩
    exact hne (List.append_eq_nil.mp hw.symm).1
  | cons c rest ih =>
    simp only [wplusTails]
    split
    · rename_i hword
      simp only [List.mem_cons]
      constructor
      · rintro (rfl | hmem)
        · exact ⟨[c], by simp, by simpa using hword, rfl⟩
        · obtain ⟨w, hne, hw, rfl⟩ := ih.mp hmem
          exact ⟨c :: w, by simp, by simpa [hword] using hw, rfl⟩
      · rintro ⟨w, hne, hw, heq⟩
        cases w with
        | nil => exact absurd rfl hne
        | cons w0 w2 =>
          rw [List.cons_append] at heq
          obtain ⟨hc, hrest⟩ := List.cons.inj heq
          cases w2 with
          | nil => left; simpa using hrest.symm
          | cons w1 w3 =>
            right
            exact ih.mpr ⟨w1 :: w3, by simp,
              fun x hx => hw x (List.mem_cons_of_mem _ hx), hrest⟩
    · rename_i hword
      simp only [List.not_mem_nil, false_iff]
      rintro ⟨w, hne, hw, heq⟩
      cases w with
      | nil => exact hne rfl
      | cons w0 w2 =>
        rw [List.cons_append] at heq
        obtain ⟨hc, _⟩ := List.cons.inj heq
        exact hword (hc ▸ hw w0 (by simp))

theorem sstarTails_mem {t r : List Char} :
    r ∈ sstarTails t ↔ ∃ s, (∀ c ∈ s, isSpaceRe c = true) ∧ t = s ++ r := by
  induction t generalizing r with
  | nil =>
    simp only [sstarTails, List.mem_singleton]
    constructor
    · rintro rfl; exact ⟨[], by simp, rfl⟩
    · rintro ⟨s, _, hs⟩
      obtain ⟨rfl, rfl⟩ := List.append_eq_nil.mp hs.symm
      rfl
  | cons c rest ih =>
    simp only [sstarTails, List.mem_cons]
    split
    · rename_i hsp
      constructor
      · rintro (rfl | hmem)
        · exact ⟨[], by simp, rfl⟩
        · obtain ⟨s, hs, rfl⟩ := ih.mp hmem
          exact ⟨c :: s, by simpa [hsp] using hs, rfl⟩
      · rintro ⟨s, hs, heq⟩
        cases s with
        | nil => left; simpa using heq.symm
        | cons s0 s2 =>
          right
          rw [List.cons_append] at heq
          obtain ⟨hc, hrest⟩ := List.cons.inj heq
          exact ih.mpr ⟨s2, fun x hx => hs x (List.mem_cons_of_mem _ hx), hrest⟩
    · rename_i hsp
      simp only [List.not_mem_nil, or_false]
      constructor
      · rintro rfl; exact ⟨[], by simp, rfl⟩
      · rintro ⟨s, hs, heq⟩
        cases s with
        | nil => simpa using heq.symm
        | cons s0 s2 =>
          rw [List.cons_append] at heq
          obtain ⟨hc, _⟩ := List.cons.inj heq
          exact absurd (hc ▸ hs s0 (by simp)) (by simp [hsp])

theorem blockTails_mem {t r : List Char} :
    r ∈ blockTails t ↔ ∃ b, IsWordBlock b ∧ t = b ++ r := by
  simp only [blockTails, List.mem_flatMap]
  constructor
  · rintro ⟨m, hm, hr⟩
    obtain ⟨w, hwne, hw, rfl⟩ := wplusTails_mem.mp hm
    obtain ⟨s, hs, rfl⟩ := sstarTails_mem.mp hr
    exact ⟨w ++ s, ⟨w, s, rfl, hwne, hw, hs⟩, by simp [List.append_assoc]⟩
  · rintro ⟨b, ⟨w, s, rfl, hwne, hw, hs⟩, rfl⟩
    exact ⟨s ++ r, wplusTails_mem.mpr ⟨w, hwne, hw, by simp [List.append_assoc]⟩,
      sstarTails_mem.mpr ⟨s, hs, rfl⟩⟩

theorem rep13Tails_iff {t : List Char} :
    (rep13Tails t).any List.isEmpty = true ↔ WordBlocks13 t := by
  have hnil : ∀ u : List Char, ([] ∈ blockTails u ↔ ∃ b, IsWordBlock b ∧ u = b) := by
    intro u
    rw [blockTails_mem]
    simp
  rw [List.any_eq_true]
  have hmem : (∃ x ∈ rep13Tails t, x.isEmpty = true) ↔ [] ∈ rep13Tails t := by
    constructor
    · rintro ⟨x, hx, hxe⟩; rwa [List.isEmpty_iff.mp hxe] at hx
    · intro hx; exact ⟨[], hx, rfl⟩
  rw [hmem]
  simp only [rep13Tails, List.mem_append, List.mem_flatMap]
  constructor
  · rintro ((h1 | h2) | h3)
    · obtain ⟨b, hb, hbe⟩ := (hnil t).mp h1
      exact Or.inl ⟨b, hb, hbe⟩
    · obtain ⟨r, hr, h0⟩ := h2
      obtain ⟨b1, hb1, ht⟩ := blockTails_mem.mp hr
      obtain ⟨b2, hb2, hr2⟩ := (hnil r).mp h0
      exact Or.inr (Or.inl ⟨b1, b2, hb1, hb2, by rw [ht, hr2]⟩)
    · obtain ⟨r2, hr2mem, h0⟩ := h3
      obtain ⟨r1, hr1mem, hr2b⟩ := hr2mem
      obtain ⟨b1, hb1, ht⟩ := blockTails_mem.mp hr1mem
      obtain ⟨b2, hb2, hr1⟩ := blockTails_mem.mp hr2b
      obtain ⟨b3, hb3, hr2e⟩ := (hnil r2).mp h0
      refine Or.inr (Or.inr ⟨b1, b2, b3, hb1, hb2, hb3, ?_⟩)
      rw [ht, hr1, hr2e, List.append_assoc]
  · rintro (⟨b, hb, hbe⟩ | ⟨b1, b2, hb1, hb2, hbe⟩ | ⟨b1, b2, b3, hb1, hb2, hb3, hbe⟩)
    · exact Or.inl (Or.inl ((hnil t).mpr ⟨b, hb, hbe⟩))
    · exact Or.inl (Or.inr ⟨b2, blockTails_mem.mpr ⟨b1, hb1, hbe⟩,
        (hnil b2).mpr ⟨b2, hb2, rfl⟩⟩)
    · refine Or.inr ⟨b3, ⟨b2 ++ b3,
        blockTails_mem.mpr ⟨b1, hb1, by rw [hbe, List.append_assoc]⟩,
        blockTails_mem.mpr ⟨b2, hb2, rfl⟩⟩, (hnil b3).mpr ⟨b3, hb3, rfl⟩⟩

theorem endsWithWordDash_iff {line : List Char} :
    endsWithWordDash line = true ↔
      ∃ c, isWordChar c = true ∧ [c, '-'] <:+ line := by
  have hsuffix : ∀ c : Char, ([c, '-'] <:+ line ↔ ['-', c] <+: line.reverse) := by
    intro c
    rw [← List.reverse_prefix]
    simp
  simp only [hsuffix]
  unfold endsWithWordDash
  rcases hr : line.reverse with _ | ⟨c1, _ | ⟨c2, rest2⟩⟩
  · simp
  · simp [List.cons_prefix_cons]
  · simp only [List.cons_prefix_cons, List.nil_prefix, and_true,
      Bool.and_eq_true, decide_eq_true_eq]
    constructor
    · rintro ⟨hc1, hc2⟩
      exact ⟨c2, hc2, hc1.symm, rfl⟩
    · rintro ⟨c, hc, h1, rfl⟩
      exact ⟨h1.symm, hc⟩

theorem sentFromMyMatch_iff {line : List Char} :
    sentFromMyMatch line = true ↔
      ∃ t, line = t ++ sentFromMyTail ∧ WordBlocks13 t := by
  unfold sentFromMyMatch
  rw [Bool.and_eq_true, List.isSuffixOf_iff_suffix]
  constructor
  · rintro ⟨⟨t0, ht⟩, hany⟩
    have htake : line.take (line.length - sentFromMyTail.length) = t0 := by
      rw [← ht]
      simp [List.take_left]
    rw [htake] at hany
    exact ⟨t0, ht.symm, rep13Tails_iff.mp hany⟩
  · rintro ⟨t0, rfl, hwb⟩
    refine ⟨⟨t0, rfl⟩, ?_⟩
    have htake : (t0 ++ sentFromMyTail).take
        ((t0 ++ sentFromMyTail).length - sentFromMyTail.length) = t0 := by
      simp [List.take_left]
    rw [htake]
    exact rep13Tails_iff.mpr hwb

/-- C7 counterexample: the line `a--b` passes the source's signature test
(`sigRegexp` finds `--` anywhere in the line, unanchored), but it is not
one of the forms the claim lists — in particular it does not *consist of*
`--`. -/
theorem C7_counterexample :
    sigRegexpMatch ['a', '-', '-', 'b'] = true ∧ ¬ specSigClaim ['a', '-', '-', 'b'] := by
  refine ⟨by decide, ?_⟩
  rintro (h | h | ⟨c, hc, t0, ht⟩ | ⟨t, ht, _⟩)
  · exact absurd h (by decide)
  · exact absurd h (by decide)
  · have h2 := congrArg List.reverse ht
    simp at h2
  · have hlen := congrArg List.length ht
    have h13 : sentFromMyTail.length = 13 := by decide
    simp [h13] at hlen

/-- C7 (amended): the signature-start test passes exactly when the line
*contains* `--` or `__` anywhere, or ends with a word character followed
by `-`, or is one to three words followed by the reversed phrase
` Sent from my` (first conjunct); and the line buffered by `scanLine` is
the raw line exactly when the test passes, and the line with leading
whitespace removed otherwise (second conjunct, shown for a scan from the
initial state). -/
theorem C7_signature_test (line : List Char) :
    (sigRegexpMatch line = true ↔
      (['-', '-'] <:+: line ∨ ['_', '_'] <:+: line ∨
        (∃ c, isWordChar c = true ∧ [c, '-'] <:+ line) ∨
        (∃ t, line = t ++ sentFromMyTail ∧ WordBlocks13 t))) ∧
    (scanLine initialState line).fragment =
      some ⟨[if sigRegexpMatch line = true then line else line.dropWhile unicodeIsSpace],
        [], false, false, false,
        quotedRegexpMatch
          (if sigRegexpMatch line = true then line else line.dropWhile unicodeIsSpace)⟩ := by
  constructor
  · unfold sigRegexpMatch
    simp only [Bool.or_eq_true, containsSeq_iff, endsWithWordDash_iff, sentFromMyMatch_iff]
    constructor
    · rintro (((h | h) | h) | h)
      · exact Or.inl h
      · exact Or.inr (Or.inl h)
      · exact Or.inr (Or.inr (Or.inl h))
      · exact Or.inr (Or.inr (Or.inr h))
    · rintro (h | h | h | h)
      · exact Or.inl (Or.inl (Or.inl h))
      · exact Or.inl (Or.inl (Or.inr h))
      · exact Or.inl (Or.inr h)
      · exact Or.inr h
  · rfl

/-! ## Long-line behavior (for C1): `parse` is total and has no length limit -/

theorem bool_eq_false_of {b : Bool} (h : b = true → False) : b = false := by
  cases b
  · rfl
  · exact absurd rfl h

theorem slice_subset (t : List Char) (i k : Nat) : slice t i k ⊆ t := by
  intro a ha
  exact List.drop_subset i t (List.take_subset k (t.drop i) ha)

theorem crlf_replicate (n : Nat) :
    replaceAll ['\r', '\n'] ['\n'] (List.replicate n 'a') = List.replicate n 'a' :=
  replaceAll_of_head_notMem (by simp [List.mem_replicate])
theorem find1_replicate (n : Nat) :
    multiLineReplyHeaderFind1 (List.replicate n 'a') = none := by
  have hfind : (List.range (List.replicate n 'a').length).find?
      (fun p => onWroteStartOk (List.replicate n 'a') p &&
        !(onWroteEnds (List.replicate n 'a') p).isEmpty) = none := by
    rw [List.find?_eq_none]
    intro p _ h
    obtain ⟨hstart, _⟩ := Bool.and_eq_true _ _ |>.mp h
    simp only [onWroteStartOk, Bool.and_eq_true, decide_eq_true_eq] at hstart
    obtain ⟨⟨_, hslice⟩, _⟩ := hstart
    have h4 : 'O' ∈ slice (List.replicate n 'a') p 2 := by rw [hslice]; decide
    have h5 : ('O' : Char) = 'a' := List.eq_of_mem_replicate (slice_subset _ _ _ h4)
    exact absurd h5 (by decide)
  unfold multiLineReplyHeaderFind1
  rw [hfind]

theorem find2_replicate (n : Nat) :
    multiLineReplyHeaderFind2 (List.replicate n 'a') = none := by
  have hfind : (List.range (List.replicate n 'a').length).find?
      (fun p => dateStartOk (List.replicate n 'a') p &&
        !(ltSignPositions (List.replicate n 'a') p).isEmpty) = none := by
    rw [List.find?_eq_none]
    intro p _ h
    obtain ⟨hstart, _⟩ := Bool.and_eq_true _ _ |>.mp h
    simp only [dateStartOk, digitsAt, Bool.and_eq_true, decide_eq_true_eq] at hstart
    obtain ⟨⟨⟨⟨⟨⟨_, hlen, hall⟩, _⟩, _⟩, _⟩, _⟩, _⟩ := hstart
    cases hsl : slice (List.replicate n 'a') p 4 with
    | nil => rw [hsl] at hlen; simp at hlen
    | cons c cs =>
      have hca : c = 'a' :=
        List.eq_of_mem_replicate (slice_subset _ _ _ (hsl ▸ List.mem_cons_self c cs))
      rw [hsl] at hall
      simp only [List.all_cons, Bool.and_eq_true] at hall
      rw [hca] at hall
      exact absurd hall.1 (by decide)
  unfold multiLineReplyHeaderFind2
  rw [hfind]

theorem normalize_replicate (n : Nat) :
    normalize (List.replicate n 'a') = List.replicate n 'a' := by
  unfold normalize
  simp only [crlf_replicate, find1_replicate, find2_replicate]

theorem sig_replicate (n : Nat) : sigRegexpMatch (List.replicate n 'a') = false := by
  have h1 : containsSeq ['-', '-'] (List.replicate n 'a') = false := by
    apply bool_eq_false_of
    intro h
    have := (containsSeq_iff.mp h).sublist.subset (List.mem_cons_self '-' ['-'])
    exact absurd (List.eq_of_mem_replicate this) (by decide)
  have h2 : containsSeq ['_', '_'] (List.replicate n 'a') = false := by
    apply bool_eq_false_of
    intro h
    have := (containsSeq_iff.mp h).sublist.subset (List.mem_cons_self '_' ['_'])
    exact absurd (List.eq_of_mem_replicate this) (by decide)
  have h3 : endsWithWordDash (List.replicate n 'a') = false := by
    unfold endsWithWordDash
    rw [List.reverse_replicate]
    cases n with
    | zero => rfl
    | succ m =>
      cases m with
      | zero => rfl
      | succ k =>
        rw [List.replicate_succ, List.replicate_succ]
        simp
  have h4 : sentFromMyMatch (List.replicate n 'a') = false := by
    unfold sentFromMyMatch
    have hsf : sentFromMyTail.isSuffixOf (List.replicate n 'a') = false := by
      apply bool_eq_false_of
      intro h
      have hm : ' ' ∈ List.replicate n 'a' :=
        (List.isSuffixOf_iff_suffix.mp h).sublist.subset (by simp [sentFromMyTail])
      exact absurd (List.eq_of_mem_replicate hm) (by decide)
    rw [hsf]
    rfl
  unfold sigRegexpMatch
  rw [h1, h2, h3, h4]
  rfl

theorem dropWhile_space_replicate (n : Nat) :
    (List.replicate n 'a').dropWhile unicodeIsSpace = List.replicate n 'a' := by
  cases n with
  | zero => rfl
  | succ m =>
    rw [List.replicate_succ, List.dropWhile_cons, if_neg (by decide)]

theorem processLine_replicate (n : Nat) :
    processLine (List.replicate n 'a') = List.replicate n 'a' := by
  unfold processLine
  rw [sig_replicate, if_neg (by decide)]
  exact dropWhile_space_replicate n

theorem quoted_replicate (n : Nat) :
    quotedRegexpMatch (List.replicate n 'a') = false := by
  unfold quotedRegexpMatch
  rw [List.getLast?_eq_head?_reverse, List.reverse_replicate]
  cases n with
  | zero => rfl
  | succ m =>
    rw [List.replicate_succ]
    simp

theorem trimSpace_replicate (n : Nat) :
    trimSpace (List.replicate n 'a') = List.replicate n 'a' := by
  unfold trimSpace trimRightSpace
  rw [dropWhile_space_replicate, List.reverse_replicate, dropWhile_space_replicate,
    List.reverse_replicate]

theorem parse_replicate_a (n : Nat) :
    parse (List.replicate (n + 1) 'a') =
      [⟨[], List.replicate (n + 1) 'a', false, false, false, false⟩] := by
  have hsplit : splitLines ((normalize (List.replicate (n + 1) 'a')).reverse) =
      [List.replicate (n + 1) 'a'] := by
    rw [normalize_replicate, List.reverse_replicate]
    exact splitLines_of_no_newline (by simp [List.mem_replicate])
  have hscan : scanLine initialState (List.replicate (n + 1) 'a') =
      ⟨false, some ⟨[processLine (List.replicate (n + 1) 'a')], [], false, false, false,
        quotedRegexpMatch (processLine (List.replicate (n + 1) 'a'))⟩, []⟩ := rfl
  rw [parse_eq, hsplit]
  simp only [List.foldl_cons, List.foldl_nil]
  rw [hscan, processLine_replicate, quoted_replicate]
  rw [finishFragment_some_eq]
  have hjoin : joinLines [List.replicate (n + 1) 'a'] = List.replicate (n + 1) 'a' := rfl
  have hhc : hiddenCond ⟨[List.replicate (n + 1) 'a'], [], false, false, false, false⟩
      = false := by
    unfold hiddenCond Fragment.finish
    simp only [hjoin, List.reverse_replicate, trimSpace_replicate]
    simp [List.replicate_succ]
  rw [hhc]
  simp [Fragment.finish, hjoin, List.reverse_replicate]

/-- C1 counterexample: an input consisting of one 64 KiB + 1 character
line satisfies the spec's LineTooLong condition, yet `parse` does not
fail or discard anything — the Go code reads lines with an unbounded
`bufio.Reader`, `Parse` has no error result, and here it returns the
complete input as one visible fragment. -/
theorem C1_counterexample :
    specLineTooLong (List.replicate 65537 'a') = true ∧
    parse (List.replicate 65537 'a') =
      [⟨[], List.replicate 65537 'a', false, false, false, false⟩] := by
  constructor
  · unfold specLineTooLong
    rw [normalize_replicate, List.reverse_replicate,
      splitLines_of_no_newline
        (fun hm => absurd (List.eq_of_mem_replicate hm) (by decide))]
    have hlen : (List.replicate 65537 'a').length = 65537 := List.length_replicate _ _
    simp only [List.any_cons, List.any_nil, Bool.or_false, hlen]
    decide
  · have h := parse_replicate_a 65536
    norm_num at h
    exact h

/-- C1 (amended): `Parse` never fails.  There is no LineTooLong (or any
other) error condition: for every input text, including texts whose lines
exceed 64 KiB, `parse` returns the complete ordered fragment sequence,
which is never empty. -/
theorem C1_parse_never_fails (text : List Char) : 1 ≤ (parse text).length := by
  have hInv := scanInv_parse text
  set stF := finishFragment
    ((splitLines (normalize text).reverse).foldl scanLine initialState) with hstF
  have hfrag : stF.fragment = none := finishFragment_fragment_none _
  have hne : (splitLines (normalize text).reverse).map processLine ≠ [] := by
    simp [splitLines_ne_nil]
  have hb : stateBlocks stF ≠ [] := fun he => hne (hInv.blocksNil.mp he)
  have hfr : stF.fragments ≠ [] := by
    intro he
    exact hb (by simp [stateBlocks, hfrag, openBlocks, he])
  rw [parse_eq]
  have := List.length_pos.mpr hfr
  simpa using this
